import Mathlib

/-!
# ACME provider: domain validation, coverage, pruning, cache and renewal

A shallow embedding of `pkg/provider/acme/provider.go`.

Go strings are lists of characters, Go slices are lists, the resolving-domain
map is the list of its keys, and the blocking calls into the issuing client are
outcomes supplied by the environment.  Logging is left out: it has no effect on
any value that the functions return or store.
-/

set_option autoImplicit false
set_option linter.dupNamespace false

namespace Acme

/-! ## Go standard library helpers -/

namespace strings

/-- Go `strings.HasPrefix`. -/
def HasPrefix (s pre : List Char) : Bool :=
  pre.isPrefixOf s

/-- Go `strings.Split` for a separator of one character: the pieces between
the separators, `[""]` for the empty string. -/
def Split (s : List Char) (sep : Char) : List (List Char) :=
  match s with
  | [] => [[]]
  | c :: cs =>
    if c = sep then [] :: Split cs sep
    else
      match Split cs sep with
      | [] => [[c]]
      | p :: ps => (c :: p) :: ps

/-- Go `strings.Join` for a separator of one character. -/
def Join (parts : List (List Char)) (sep : Char) : List Char :=
  match parts with
  | [] => []
  | [p] => p
  | p :: q :: rest => p ++ sep :: Join (q :: rest) sep

end strings

/-! ## The `types` package -/

/-- Modelled from the spec: the `types.Domain` structure is declared in
`pkg/types`, which is not among the sources.  Section 3 gives it a `Main` name
and an ordered list of `SANs`, compared element for element, so `reflect.DeepEqual`
on two Domains is equality of the two structures. -/
structure Domain where
  Main : List Char
  SANs : List (List Char)
  deriving DecidableEq, Repr

/-- Modelled from the spec: `types.Domain.ToStrArray` is declared in `pkg/types`,
which is not among the sources.  Section 3: the flattened string list is
`[Main] + SANs`; a Domain without a `Main` contributes no first element, so the
empty Domain of section 4.1 flattens to the empty list. -/
def Domain.ToStrArray (d : Domain) : List (List Char) :=
  (if d.Main.length > 0 then [d.Main] else []) ++ d.SANs

/-- Modelled from the spec: `types.Domain.Set` is declared in `pkg/types`, which
is not among the sources.  Section 4.2 (a): the entry's domain-string list is
replaced by the given one, first name as `Main` and the rest as `SANs`. -/
def Domain.Set (d : Domain) (domains : List (List Char)) : Domain :=
  match domains with
  | [] => d
  | m :: rest => { Main := m, SANs := rest }

/-- Modelled from the spec: `types.MatchDomain` is declared in `pkg/types`, which
is not among the sources.  Section 4.2 (b) and the glossary: the candidate is
matched by an entry that is the candidate itself, or by a wildcard entry, one
beginning with `*.`, when the candidate is a single-label subdomain of the
wildcard's suffix (no recursive wildcard coverage). -/
def MatchDomain (domain certDomain : List Char) : Bool :=
  domain == certDomain ||
    (strings.HasPrefix certDomain ['*', '.'] &&
      !(domain.takeWhile (fun c => c != '.')).isEmpty &&
      domain.dropWhile (fun c => c != '.') == '.' :: certDomain.drop 2)

/-- Modelled from the spec: `types.CanonicalDomain` is declared in `pkg/types`,
which is not among the sources.  Section 4.1: each name is canonicalized in
case; surrounding blanks are trimmed.  Letters and blanks are the ASCII ones. -/
def CanonicalDomain (domain : List Char) : List Char :=
  (((domain.dropWhile Char.isWhitespace).reverse.dropWhile Char.isWhitespace).reverse).map
    Char.toLower

/-- The helper `dns01.UnFqdn` of the issuing library: one trailing dot is
removed (section 4.1, trailing-dot normalization). -/
def UnFqdn (name : List Char) : List Char :=
  if name.getLast? = some '.' then name.dropLast else name

/-! ## Configuration and provider state -/

/-- `DNSChallenge` of provider.go. -/
structure DNSChallenge where
  Provider : List Char
  DelayBeforeCheck : Int
  Resolvers : List (List Char)
  DisablePropagationCheck : Bool
  deriving DecidableEq, Repr

/-- `HTTPChallenge` of provider.go. -/
structure HTTPChallenge where
  EntryPoint : List Char
  deriving DecidableEq, Repr

/-- `TLSChallenge` of provider.go. -/
structure TLSChallenge where
  deriving DecidableEq, Repr

/-- `Certificate` of provider.go: a Domain with its certificate and key bytes. -/
structure Certificate where
  Domain : Domain
  Certificate : List Nat
  Key : List Nat
  deriving DecidableEq, Repr

/-- The errors that the modelled functions return, one constructor for each
`errors.New` or `fmt.Errorf` site. -/
inductive AcmeError where
  | noDomainGiven
  | wildcardFromHostRule (domains : List (List Char))
  | wildcardNeedsDNSChallenge (domains : List (List Char))
  | doubleWildcard (domains : List (List Char))
  | accountInit
  | newClient
  | register
  | saveAccount
  | dnsChallengeProvider
  | setChallengeProvider
  | challengeNotSpecified
  | cannotGetClient (cause : AcmeError)
  | unableToGenerate (domains : List (List Char))
  | noCertificateGenerated (domains : List (List Char))
  | certificateWithNoValue (domains : List (List Char))
  deriving DecidableEq, Repr

/-- The challenge mechanism that `getClient` installs on the client. -/
inductive Challenge where
  | dns01
  | http01
  | tlsalpn01
  deriving DecidableEq, Repr

/-- The fields of `Provider` (with the embedded `Configuration`) that the
modelled functions read or write.  `tlsStoreDomains` is the value of
`p.tlsManager.GetStore("default").GetAllDomains()`, `resolvingDomains` the keys
of the map of the same name, `client` the memoized client, represented by the
challenge installed on it. -/
structure Provider where
  DNSChallenge : Option DNSChallenge
  HTTPChallenge : Option HTTPChallenge
  TLSChallenge : Option TLSChallenge
  Domains : List Domain
  certificates : List Certificate
  resolvingDomains : List (List Char)
  tlsStoreDomains : List (List Char)
  client : Option Challenge
  deriving Repr

/-! ## Domain validation and coverage -/

/-- The loop of `getValidDomains` that builds `cleanDomains`. -/
def cleanDomains (domains : List (List Char)) : List (List Char) :=
  domains.map (fun domain => UnFqdn (CanonicalDomain domain))

/-- `Provider.getValidDomains`. -/
def getValidDomains (p : Provider) (domain : Domain) (wildcardAllowed : Bool) :
    Except AcmeError (List (List Char)) :=
  let domains := domain.ToStrArray
  if domains.length = 0 then
    .error .noDomainGiven
  else if strings.HasPrefix domain.Main ['*'] then
    if !wildcardAllowed then
      .error (.wildcardFromHostRule domains)
    else if p.DNSChallenge.isNone then
      .error (.wildcardNeedsDNSChallenge domains)
    else if strings.HasPrefix domain.Main ['*', '.', '*'] then
      .error (.doubleWildcard domains)
    else
      .ok (cleanDomains domains)
  else
    .ok (cleanDomains domains)

/-- `isDomainAlreadyChecked`. -/
def isDomainAlreadyChecked (domainToCheck : List Char) (existentDomains : List (List Char)) :
    Bool :=
  existentDomains.any (fun certDomains =>
    (strings.Split certDomains ',').any (fun certDomain => MatchDomain domainToCheck certDomain))

/-- `searchUncheckedDomains`. -/
def searchUncheckedDomains (domainsToCheck existentDomains : List (List Char)) :
    List (List Char) :=
  domainsToCheck.filter (fun domainToCheck => !isDomainAlreadyChecked domainToCheck existentDomains)

/-- The list `allDomains` that `getUncheckedDomains` builds: the TLS store's
domains, the comma-joined names of every cached certificate, the resolving
domains and, when `checkConfigurationDomains` is set, the comma-joined names of
every configured Domain. -/
def allDomains (p : Provider) (checkConfigurationDomains : Bool) : List (List Char) :=
  p.tlsStoreDomains
    ++ p.certificates.map (fun cert => strings.Join cert.Domain.ToStrArray ',')
    ++ p.resolvingDomains
    ++ (if checkConfigurationDomains then
          p.Domains.map (fun domain => strings.Join domain.ToStrArray ',')
        else [])

/-- `Provider.getUncheckedDomains`. -/
def getUncheckedDomains (p : Provider) (domainsToCheck : List (List Char))
    (checkConfigurationDomains : Bool) : List (List Char) :=
  searchUncheckedDomains domainsToCheck (allDomains p checkConfigurationDomains)

/-! ## Startup pruning -/

/-- The inner filter of `deleteUnnecessaryDomains` (the loop over
`domainToCheck.ToStrArray()`): the names of `domainToCheck` that `domain`, the
entry at index `idxDomain`, does not cover. -/
def newDomainsToCheck (idxDomainToCheck idxDomain : Nat) (domain domainToCheck : Domain) :
    List (List Char) :=
  domainToCheck.ToStrArray.filter (fun domainProcessed =>
    !((decide (idxDomain < idxDomainToCheck) &&
          isDomainAlreadyChecked domainProcessed domain.ToStrArray) ||
      (domain.Main != domainProcessed && strings.HasPrefix domain.Main ['*'] &&
          isDomainAlreadyChecked domainProcessed [domain.Main])))

/-- The loop of `deleteUnnecessaryDomains` over `idxDomain, domain`, run on the
entries that are still to be visited: the final `keepDomain` and
`domainToCheck`.  A `break` ends the recursion. -/
def checkDomain (idxDomainToCheck : Nat) (domains : List (Nat × Domain))
    (domainToCheck : Domain) : Bool × Domain :=
  match domains with
  | [] => (true, domainToCheck)
  | (idxDomain, domain) :: rest =>
    if idxDomainToCheck = idxDomain then
      checkDomain idxDomainToCheck rest domainToCheck
    else if domain = domainToCheck then
      (!decide (idxDomainToCheck > idxDomain), domainToCheck)
    else
      let names := newDomainsToCheck idxDomainToCheck idxDomain domain domainToCheck
      if names = [] then
        (false, domainToCheck)
      else
        checkDomain idxDomainToCheck rest (domainToCheck.Set names)

/-- The body of the outer loop of `deleteUnnecessaryDomains` for the entry at
index `idxDomainToCheck`: the entry appended to `newDomains`, if any. -/
def keptDomain (domains : List Domain) (idxDomainToCheck : Nat) (domainToCheck : Domain) :
    Option Domain :=
  let r := checkDomain idxDomainToCheck domains.enum domainToCheck
  if r.1 then some r.2 else none

/-- `Provider.deleteUnnecessaryDomains`, as a function of `p.Domains`. -/
def deleteUnnecessaryDomains (domains : List Domain) : List Domain :=
  domains.enum.filterMap (fun e => keptDomain domains e.1 e.2)

/-! ## Resolving set and certificate cache -/

/-- The loop of `addResolvingDomains` on the keys of the map: every name becomes
a key. -/
def addKeys (keys resolvingDomains : List (List Char)) : List (List Char) :=
  resolvingDomains.foldl (fun m domain => if domain ∈ m then m else m ++ [domain]) keys

/-- The loop of `removeResolvingDomains` on the keys of the map: every name is
deleted. -/
def removeKeys (keys resolvingDomains : List (List Char)) : List (List Char) :=
  resolvingDomains.foldl (fun m domain => m.filter (fun k => k != domain)) keys

/-- `Provider.addResolvingDomains`. -/
def addResolvingDomains (p : Provider) (resolvingDomains : List (List Char)) : Provider :=
  { p with resolvingDomains := addKeys p.resolvingDomains resolvingDomains }

/-- `Provider.removeResolvingDomains`. -/
def removeResolvingDomains (p : Provider) (resolvingDomains : List (List Char)) : Provider :=
  { p with resolvingDomains := removeKeys p.resolvingDomains resolvingDomains }

/-- The scan of `watchCertificate` over `p.certificates`: the list with the first
record of the same Domain given the new certificate and key, or `none` when
`certUpdated` stays false. -/
def updateCertificate (certificates : List Certificate) (cert : Certificate) :
    Option (List Certificate) :=
  match certificates with
  | [] => none
  | domainsCertificate :: rest =>
    if cert.Domain = domainsCertificate.Domain then
      some ({ domainsCertificate with Certificate := cert.Certificate, Key := cert.Key } :: rest)
    else
      (updateCertificate rest cert).map (fun l => domainsCertificate :: l)

/-- The step of `watchCertificate` on receipt of `cert` from `certsChan`: the new
value of `p.certificates`. -/
def watchCertificate (certificates : List Certificate) (cert : Certificate) :
    List Certificate :=
  match updateCertificate certificates cert with
  | some updated => updated
  | none => certificates ++ [cert]

/-! ## The issuing client -/

/-- What `client.Certificate.Obtain` hands back: an error, a nil resource
without error, or a resource with its certificate and private key bytes. -/
inductive Issued where
  | error
  | nilResource
  | resource (Certificate PrivateKey : List Nat)
  deriving DecidableEq, Repr

/-- The leaf certificate that `getX509Certificate` reads: its expiry, in
nanoseconds. -/
structure X509Certificate where
  NotAfter : Int
  deriving DecidableEq, Repr

/-- The outcomes of the calls that leave the provider: account creation, client
construction, registration, account persistence, challenge-provider set-up, the
client's obtain and renew operations (`none` for a renewal that fails) and the
parsing of a stored key pair (`none` for a pair that does not load or parse). -/
structure Environment where
  initAccount : Bool
  newClient : Bool
  hasRegistration : Bool
  register : Bool
  saveAccount : Bool
  newDNSChallengeProvider : Bool
  setChallengeProvider : Bool
  obtain : List (List Char) → Issued
  renew : Certificate → Option (List Nat × List Nat)
  x509KeyPair : List Nat → List Nat → Option X509Certificate

/-- The `switch` of `getClient` that selects the challenge mechanism. -/
def selectChallenge (env : Environment) (p : Provider) : Except AcmeError Challenge :=
  if p.DNSChallenge.any (fun c => c.Provider.length > 0) then
    if !env.newDNSChallengeProvider then .error .dnsChallengeProvider
    else if !env.setChallengeProvider then .error .setChallengeProvider
    else .ok .dns01
  else if p.HTTPChallenge.any (fun c => c.EntryPoint.length > 0) then
    if !env.setChallengeProvider then .error .setChallengeProvider
    else .ok .http01
  else if p.TLSChallenge.isSome then
    if !env.setChallengeProvider then .error .setChallengeProvider
    else .ok .tlsalpn01
  else
    .error .challengeNotSpecified

/-- `Provider.getClient`: the memoized client if there is one, else a client
built, registered and given its challenge; the provider keeps the new client. -/
def getClient (env : Environment) (p : Provider) : Except AcmeError Challenge × Provider :=
  match p.client with
  | some client => (.ok client, p)
  | none =>
    if !env.initAccount then (.error .accountInit, p)
    else if !env.newClient then (.error .newClient, p)
    else if !env.hasRegistration && !env.register then (.error .register, p)
    else if !env.saveAccount then (.error .saveAccount, p)
    else
      match selectChallenge env p with
      | .error e => (.error e, p)
      | .ok client => (.ok client, { p with client := some client })

/-! ## Resolution -/

/-- What one call of `resolveCertificate` does: the returned resource or error,
the `Domains` of every `ObtainRequest` passed to the client, the names passed to
`addResolvingDomains`, the records sent on `certsChan`, and the provider when the
call returns. -/
structure Resolution where
  result : Except AcmeError (Option (List Nat × List Nat))
  obtained : List (List (List Char))
  marked : List (List Char)
  delivered : List Certificate
  provider : Provider

/-- The part of `resolveCertificate` that runs between `addResolvingDomains` and
the deferred `removeResolvingDomains`. -/
def obtainCertificate (env : Environment) (p : Provider)
    (domains uncheckedDomains : List (List Char)) : Resolution :=
  match getClient env p with
  | (.error e, p1) =>
    { result := .error (.cannotGetClient e), obtained := [], marked := uncheckedDomains,
      delivered := [], provider := p1 }
  | (.ok _, p1) =>
    match env.obtain domains with
    | .error =>
      { result := .error (.unableToGenerate uncheckedDomains), obtained := [domains],
        marked := uncheckedDomains, delivered := [], provider := p1 }
    | .nilResource =>
      { result := .error (.noCertificateGenerated uncheckedDomains), obtained := [domains],
        marked := uncheckedDomains, delivered := [], provider := p1 }
    | .resource certificate privateKey =>
      if certificate.length = 0 || privateKey.length = 0 then
        { result := .error (.certificateWithNoValue uncheckedDomains), obtained := [domains],
          marked := uncheckedDomains, delivered := [], provider := p1 }
      else
        let domain : Domain :=
          if uncheckedDomains.length > 1 then
            { Main := uncheckedDomains.headD [], SANs := uncheckedDomains.tail }
          else
            { Main := uncheckedDomains.headD [], SANs := [] }
        { result := .ok (some (certificate, privateKey)), obtained := [domains],
          marked := uncheckedDomains,
          delivered := [{ Domain := domain, Certificate := certificate, Key := privateKey }],
          provider := p1 }

/-- `Provider.resolveCertificate`. -/
def resolveCertificate (env : Environment) (p : Provider) (domain : Domain)
    (domainFromConfigurationFile : Bool) : Resolution :=
  match getValidDomains p domain domainFromConfigurationFile with
  | .error e =>
    { result := .error e, obtained := [], marked := [], delivered := [], provider := p }
  | .ok domains =>
    let uncheckedDomains := getUncheckedDomains p domains (!domainFromConfigurationFile)
    if uncheckedDomains.length = 0 then
      { result := .ok none, obtained := [], marked := [], delivered := [], provider := p }
    else
      let r := obtainCertificate env (addResolvingDomains p uncheckedDomains) domains
        uncheckedDomains
      { r with provider := removeResolvingDomains r.provider uncheckedDomains }

/-! ## Renewal -/

/-- The constant `time.Hour`, in nanoseconds. -/
def Hour : Int := 3600 * 1000000000

/-- `getX509Certificate`: the parsed leaf of the record's key pair, `none` when
loading or parsing fails. -/
def getX509Certificate (env : Environment) (cert : Certificate) : Option X509Certificate :=
  env.x509KeyPair cert.Certificate cert.Key

/-- The condition of `renewCertificates`:
`err != nil || crt == nil || crt.NotAfter.Before(time.Now().Add(24*30*time.Hour))`. -/
def needsRenewal (env : Environment) (now : Int) (cert : Certificate) : Bool :=
  match getX509Certificate env cert with
  | none => true
  | some crt => decide (crt.NotAfter < now + 24 * 30 * Hour)

/-- What one sweep of `renewCertificates` does: the records passed to the
client's renew operation, the records sent on `certsChan`, and the provider when
the sweep ends. -/
structure Renewal where
  renewed : List Certificate
  delivered : List Certificate
  provider : Provider

/-- `Provider.renewCertificates`, run over the records still to be visited at
the time `now`. -/
def renewCertificatesFrom (env : Environment) (now : Int) (p : Provider)
    (certificates : List Certificate) : Renewal :=
  match certificates with
  | [] => { renewed := [], delivered := [], provider := p }
  | cert :: rest =>
    if needsRenewal env now cert then
      match getClient env p with
      | (.error _, p1) => renewCertificatesFrom env now p1 rest
      | (.ok _, p1) =>
        let r := renewCertificatesFrom env now p1 rest
        match env.renew cert with
        | none => { r with renewed := cert :: r.renewed }
        | some (certificate, privateKey) =>
          if certificate.length = 0 || privateKey.length = 0 then
            { r with renewed := cert :: r.renewed }
          else
            { r with
              renewed := cert :: r.renewed
              delivered :=
                { Domain := cert.Domain, Certificate := certificate, Key := privateKey }
                  :: r.delivered }
    else
      renewCertificatesFrom env now p rest

/-- `Provider.renewCertificates` at the time `now`. -/
def renewCertificates (env : Environment) (now : Int) (p : Provider) : Renewal :=
  renewCertificatesFrom env now p p.certificates

/-! ## Sample configurations -/

/-- An environment in which every external step succeeds and the client's
obtain operation hands back `issued`. -/
def sampleEnvironment (issued : Issued) : Environment :=
  { initAccount := true, newClient := true, hasRegistration := false, register := true,
    saveAccount := true, newDNSChallengeProvider := true, setChallengeProvider := true,
    obtain := fun _ => issued, renew := fun _ => none, x509KeyPair := fun _ _ => none }

/-- A provider with an HTTP challenge on entry point `web`, no client yet and an
empty TLS store, with the given static domains, cached certificates and
resolving names. -/
def sampleProvider (domains : List Domain) (certificates : List Certificate)
    (resolvingDomains : List (List Char)) : Provider :=
  { DNSChallenge := none, HTTPChallenge := some ⟨"web".toList⟩, TLSChallenge := none,
    Domains := domains, certificates := certificates, resolvingDomains := resolvingDomains,
    tlsStoreDomains := [], client := none }

/-- An environment in which every external step succeeds, every stored key pair
parses to a leaf that expires at `notAfter`, and every renewal hands back a fresh
certificate and key. -/
def renewalEnvironment (notAfter : Int) : Environment :=
  { initAccount := true, newClient := true, hasRegistration := true, register := true,
    saveAccount := true, newDNSChallengeProvider := true, setChallengeProvider := true,
    obtain := fun _ => .error, renew := fun _ => some ([5], [6]),
    x509KeyPair := fun _ _ => some ⟨notAfter⟩ }

/-! ## Lemmas on strings -/

theorem strings.Split_of_not_mem (sep : Char) (s : List Char) (h : sep ∉ s) :
    strings.Split s sep = [s] := by
  induction s with
  | nil => rfl
  | cons c cs ih =>
    have hc : c ≠ sep := fun e => h (by simp [e])
    have hcs : sep ∉ cs := fun m => h (List.mem_cons_of_mem _ m)
    simp [strings.Split, hc, ih hcs]

theorem strings.HasPrefix_star_of_double (s : List Char)
    (h : strings.HasPrefix s ['*', '.', '*'] = true) : strings.HasPrefix s ['*'] = true := by
  match s with
  | [] => simp [strings.HasPrefix] at h
  | c :: cs =>
    simp only [strings.HasPrefix, List.isPrefixOf, Bool.and_eq_true] at h ⊢
    simp [h.1]

theorem MatchDomain_self (d : List Char) : MatchDomain d d = true := by
  simp [MatchDomain]

theorem takeWhile_ne_dot (x rest : List Char) (hx : '.' ∉ x) :
    (x ++ '.' :: rest).takeWhile (fun c => c != '.') = x := by
  induction x with
  | nil => simp [List.takeWhile]
  | cons c cs ih =>
    have hc : c ≠ '.' := fun e => hx (by simp [e])
    have hcs : '.' ∉ cs := fun m => hx (List.mem_cons_of_mem _ m)
    have hb : (c != '.') = true := by simp [hc]
    simp [List.takeWhile_cons, hb, ih hcs]

theorem dropWhile_ne_dot (x rest : List Char) (hx : '.' ∉ x) :
    (x ++ '.' :: rest).dropWhile (fun c => c != '.') = '.' :: rest := by
  induction x with
  | nil => simp [List.dropWhile]
  | cons c cs ih =>
    have hc : c ≠ '.' := fun e => hx (by simp [e])
    have hcs : '.' ∉ cs := fun m => hx (List.mem_cons_of_mem _ m)
    have hb : (c != '.') = true := by simp [hc]
    simp [List.dropWhile_cons, hb, ih hcs]

theorem isDomainAlreadyChecked_eq_true_iff (d : List Char) (groups : List (List Char)) :
    isDomainAlreadyChecked d groups = true ↔
      ∃ g ∈ groups, ∃ e ∈ strings.Split g ',', MatchDomain d e = true := by
  simp [isDomainAlreadyChecked, List.any_eq_true]

/-! ## Domain validation -/

/-- C1: `getValidDomains` returns an error exactly when the flattened list is
empty, or `Main` starts with `*` and wildcards are not allowed, no DNSChallenge
is configured or `Main` starts with `*.*`; so a `Main` starting with `*.*` is
always rejected, and in every other case the cleaned list is returned. -/
theorem getValidDomains_error_iff (p : Provider) (domain : Domain) (wildcardAllowed : Bool) :
    ((∃ e, getValidDomains p domain wildcardAllowed = .error e) ↔
      (domain.ToStrArray = [] ∨
        (strings.HasPrefix domain.Main ['*'] = true ∧
          (wildcardAllowed = false ∨ p.DNSChallenge = none ∨
            strings.HasPrefix domain.Main ['*', '.', '*'] = true)))) ∧
    (strings.HasPrefix domain.Main ['*', '.', '*'] = true →
      ∃ e, getValidDomains p domain wildcardAllowed = .error e) ∧
    (¬ (domain.ToStrArray = [] ∨
        (strings.HasPrefix domain.Main ['*'] = true ∧
          (wildcardAllowed = false ∨ p.DNSChallenge = none ∨
            strings.HasPrefix domain.Main ['*', '.', '*'] = true))) →
      getValidDomains p domain wildcardAllowed = .ok (cleanDomains domain.ToStrArray)) := by
  have key : (∃ e, getValidDomains p domain wildcardAllowed = .error e) ↔
      (domain.ToStrArray = [] ∨
        (strings.HasPrefix domain.Main ['*'] = true ∧
          (wildcardAllowed = false ∨ p.DNSChallenge = none ∨
            strings.HasPrefix domain.Main ['*', '.', '*'] = true))) := by
    unfold getValidDomains
    by_cases h0 : domain.ToStrArray = []
    · simp [h0]
    · have hlen : ¬ domain.ToStrArray.length = 0 := by simpa using h0
      by_cases h1 : strings.HasPrefix domain.Main ['*'] = true
      · cases wildcardAllowed
        · simp [h0, h1]
        · cases hd : p.DNSChallenge with
          | none => simp [h0, h1]
          | some c =>
            by_cases h2 : strings.HasPrefix domain.Main ['*', '.', '*'] = true
            · simp [h0, h1, h2]
            · simp [h0, h1, h2]
      · simp [h0, h1]
  refine ⟨key, ?_, ?_⟩
  · intro h
    exact key.mpr (Or.inr ⟨strings.HasPrefix_star_of_double _ h, Or.inr (Or.inr h)⟩)
  · intro h
    cases hr : getValidDomains p domain wildcardAllowed with
    | error e => exact absurd (key.mp ⟨e, hr⟩) h
    | ok l =>
      unfold getValidDomains at hr
      simp only [] at hr
      split_ifs at hr <;> simp_all

/-! ## Coverage -/

theorem strings.Split_ne_nil (s : List Char) (sep : Char) : strings.Split s sep ≠ [] := by
  cases s with
  | nil => simp [strings.Split]
  | cons c cs =>
    unfold strings.Split
    split_ifs
    · simp
    · split <;> simp

/-- Splitting at a separator splits the part before it and the part after it. -/
theorem strings.Split_append_sep (a b : List Char) (sep : Char) :
    strings.Split (a ++ sep :: b) sep = strings.Split a sep ++ strings.Split b sep := by
  induction a with
  | nil => simp [strings.Split]
  | cons c cs ih =>
    by_cases hc : c = sep
    · simp [strings.Split, hc, ← ih]
    · obtain ⟨q, qs, hq⟩ := List.exists_cons_of_ne_nil (strings.Split_ne_nil cs sep)
      simp [strings.Split, hc, ih, hq]

/-- Splitting the join of separator-free parts gives the parts back. -/
theorem strings.Split_Join (parts : List (List Char)) (sep : Char) (hne : parts ≠ [])
    (h : ∀ q ∈ parts, sep ∉ q) : strings.Split (strings.Join parts sep) sep = parts := by
  induction parts with
  | nil => exact absurd rfl hne
  | cons q rest ih =>
    have hq : sep ∉ q := h q (by simp)
    cases rest with
    | nil => simpa [strings.Join] using strings.Split_of_not_mem sep q hq
    | cons r rest2 =>
      have ih2 := ih (by simp) (fun x hx => h x (List.mem_cons_of_mem _ hx))
      simp only [strings.Join]
      rw [strings.Split_append_sep, strings.Split_of_not_mem sep q hq, ih2]
      rfl

/-- A comma-free name that stands in a group between commas or the ends of the
group is one of the pieces of the group. -/
theorem strings.mem_Split_of_element (d a b g : List Char) (hd : ',' ∉ d)
    (hg : g = d ∨ g = d ++ ',' :: b ∨ g = a ++ ',' :: d ∨ g = a ++ ',' :: (d ++ ',' :: b)) :
    d ∈ strings.Split g ',' := by
  have hsd := strings.Split_of_not_mem ',' d hd
  rcases hg with h | h | h | h
  · rw [h, hsd]
    simp
  · rw [h, strings.Split_append_sep, hsd]
    simp
  · rw [h, strings.Split_append_sep, hsd]
    simp
  · rw [h, strings.Split_append_sep, strings.Split_append_sep, hsd]
    simp

/-- C2: `isDomainAlreadyChecked` implements single-label wildcard coverage: for
non-empty dot-free, comma-free labels `x` and `y` and a well-formed suffix `s`,
`x.s` is covered by `*.s` and `x.y.s` is not; a candidate that occurs verbatim as
a comma-separated element of a group is covered, and nothing is covered by the
empty list of groups.  The comma-separated elements of a group are stated three
ways: as the pieces that `strings.Split` returns, as a comma-free name that
stands in the group between commas or the ends of the group, and as a member of
the comma-free parts whose join the group is; `b.org` is covered by the group
`a.com,b.org`, and not by the groups `x.org,ab.org` and `a.com`. -/
theorem isDomainAlreadyChecked_wildcard (x y s : List Char)
    (hx : x ≠ []) (hxd : '.' ∉ x) (_hxc : ',' ∉ x)
    (hy : y ≠ []) (_hyd : '.' ∉ y) (_hyc : ',' ∉ y)
    (_hs : ∀ l ∈ strings.Split s '.', l ≠ []) (hsc : ',' ∉ s) :
    isDomainAlreadyChecked (x ++ '.' :: s) ['*' :: '.' :: s] = true ∧
    isDomainAlreadyChecked (x ++ '.' :: (y ++ '.' :: s)) ['*' :: '.' :: s] = false ∧
    (∀ (d : List Char) (groups : List (List Char)),
      (∃ g ∈ groups, d ∈ strings.Split g ',') → isDomainAlreadyChecked d groups = true) ∧
    (∀ d : List Char, isDomainAlreadyChecked d [] = false) ∧
    (∀ (d : List Char) (groups : List (List Char)) (g a b : List Char),
      ',' ∉ d → g ∈ groups →
      (g = d ∨ g = d ++ ',' :: b ∨ g = a ++ ',' :: d ∨ g = a ++ ',' :: (d ++ ',' :: b)) →
      isDomainAlreadyChecked d groups = true) ∧
    (∀ (d : List Char) (groups parts : List (List Char)),
      (∀ q ∈ parts, ',' ∉ q) → d ∈ parts → strings.Join parts ',' ∈ groups →
      isDomainAlreadyChecked d groups = true) ∧
    isDomainAlreadyChecked "b.org".toList ["x.org".toList, "a.com,b.org".toList] = true ∧
    isDomainAlreadyChecked "b.org".toList ["x.org,ab.org".toList, "a.com".toList] = false := by
  have hsplit : strings.Split ('*' :: '.' :: s) ',' = ['*' :: '.' :: s] := by
    apply strings.Split_of_not_mem
    simp [hsc]
  refine ⟨?_, ?_, ?_, ?_, ?_, ?_, by decide, by decide⟩
  · simp only [isDomainAlreadyChecked, List.any_cons, List.any_nil, hsplit, Bool.or_false]
    simp [MatchDomain, takeWhile_ne_dot x s hxd, dropWhile_ne_dot x s hxd, hx,
      strings.HasPrefix]
  · simp only [isDomainAlreadyChecked, List.any_cons, List.any_nil, hsplit, Bool.or_false]
    have hlen1 : (x ++ '.' :: (y ++ '.' :: s)) ≠ '*' :: '.' :: s := by
      intro e
      have := congrArg List.length e
      have hx1 : 0 < x.length := List.length_pos.mpr hx
      have hy1 : 0 < y.length := List.length_pos.mpr hy
      simp at this
      omega
    have hlen2 : y ++ '.' :: s ≠ s := by
      intro e
      have := congrArg List.length e
      simp at this
      omega
    simp [MatchDomain, takeWhile_ne_dot x _ hxd, dropWhile_ne_dot x _ hxd, hlen1, hlen2]
  · rintro d groups ⟨g, hg, hd⟩
    exact (isDomainAlreadyChecked_eq_true_iff d groups).mpr ⟨g, hg, d, hd, MatchDomain_self d⟩
  · intro d
    rfl
  · intro d groups g a b hd hg hshape
    exact (isDomainAlreadyChecked_eq_true_iff d groups).mpr
      ⟨g, hg, d, strings.mem_Split_of_element d a b g hd hshape, MatchDomain_self d⟩
  · intro d groups parts hparts hd hg
    have hne : parts ≠ [] := List.ne_nil_of_mem hd
    refine (isDomainAlreadyChecked_eq_true_iff d groups).mpr
      ⟨_, hg, d, ?_, MatchDomain_self d⟩
    rw [strings.Split_Join parts ',' hne hparts]
    exact hd

theorem isDomainAlreadyChecked_wildcard_witness :
    isDomainAlreadyChecked ("x".toList ++ '.' :: "a.com".toList)
        ['*' :: '.' :: "a.com".toList] = true ∧
    isDomainAlreadyChecked ("x".toList ++ '.' :: ("y".toList ++ '.' :: "a.com".toList))
        ['*' :: '.' :: "a.com".toList] = false ∧
    isDomainAlreadyChecked "b.org".toList ["x.org".toList, "a.com,b.org,c.net".toList] = true ∧
    isDomainAlreadyChecked "c.net".toList
        ["x.org".toList, strings.Join ["a.com".toList, "b.org".toList, "c.net".toList] ','] = true :=
  ⟨(isDomainAlreadyChecked_wildcard "x".toList "y".toList "a.com".toList
      (by decide) (by decide) (by decide) (by decide) (by decide) (by decide) (by decide)
      (by decide)).1,
    (isDomainAlreadyChecked_wildcard "x".toList "y".toList "a.com".toList
      (by decide) (by decide) (by decide) (by decide) (by decide) (by decide) (by decide)
      (by decide)).2.1,
    (isDomainAlreadyChecked_wildcard "x".toList "y".toList "a.com".toList
      (by decide) (by decide) (by decide) (by decide) (by decide) (by decide) (by decide)
      (by decide)).2.2.2.2.1 "b.org".toList _ "a.com,b.org,c.net".toList "a.com".toList
      "c.net".toList (by decide) (by decide) (by decide),
    (isDomainAlreadyChecked_wildcard "x".toList "y".toList "a.com".toList
      (by decide) (by decide) (by decide) (by decide) (by decide) (by decide) (by decide)
      (by decide)).2.2.2.2.2.1 "c.net".toList _
      ["a.com".toList, "b.org".toList, "c.net".toList] (by decide) (by decide) (by decide)⟩

/-! ## Startup pruning -/

theorem Domain.mem_of_mem_Set (d : Domain) (names : List (List Char)) (hne : names ≠ [])
    (n : List Char) (hn : n ∈ (d.Set names).ToStrArray) : n ∈ names := by
  match names, hne with
  | m :: rest, _ =>
    simp only [Domain.Set, Domain.ToStrArray, List.mem_append] at hn
    rcases hn with hn | hn
    · split_ifs at hn
      · simp at hn
        simp [hn]
      · simp at hn
    · exact List.mem_cons_of_mem _ hn

theorem mem_of_mem_newDomainsToCheck (j k : Nat) (domain cur : Domain) (n : List Char)
    (hn : n ∈ newDomainsToCheck j k domain cur) : n ∈ cur.ToStrArray := by
  unfold newDomainsToCheck at hn
  exact (List.mem_filter.mp hn).1

/-- An entry all of whose names are covered by an earlier entry that is still to
be visited is not kept. -/
theorem checkDomain_covered (j i : Nat) (Di : Domain) (hij : i < j) :
    ∀ (ds : List Domain) (m : Nat) (cur : Domain), m ≤ i → ds[i - m]? = some Di →
      (∀ n ∈ cur.ToStrArray, isDomainAlreadyChecked n Di.ToStrArray = true) →
      (checkDomain j (ds.enumFrom m) cur).1 = false := by
  intro ds
  induction ds with
  | nil => intro m cur _ h; simp at h
  | cons d ds ih =>
    intro m cur hm hget hcov
    have hjm : ¬ j = m := by omega
    simp only [List.enumFrom_cons, checkDomain, hjm, if_false]
    by_cases hd : d = cur
    · simp only [hd, if_true]
      simp
      omega
    · simp only [hd, if_false]
      by_cases hnames : newDomainsToCheck j m d cur = []
      · simp [hnames]
      · simp only [hnames, if_false]
        by_cases hmi : m = i
        · exfalso
          subst hmi
          simp at hget
          subst hget
          apply hnames
          unfold newDomainsToCheck
          rw [List.filter_eq_nil_iff]
          intro n hn
          have h1 := hcov n hn
          have h2 : m < j := hij
          simp [h1, h2]
        · have hlt : m < i := by omega
          apply ih (m + 1) _ (by omega)
          · have : i - m = (i - (m + 1)) + 1 := by omega
            rw [this] at hget
            simpa using hget
          · intro n hn
            exact hcov n (mem_of_mem_newDomainsToCheck _ _ _ _ _
              (Domain.mem_of_mem_Set _ _ hnames n hn))

/-- C3: an entry at index `j` all of whose names are covered by the names of an
entry at a lower index `i` yields no entry of the pruned list; the list of two
`a.com` entries prunes to one, and `*.a.com` followed by `x.a.com` prunes to
`*.a.com` alone. -/
theorem deleteUnnecessaryDomains_drops_covered (domains : List Domain) (i j : Nat)
    (Di Dj : Domain) (hij : i < j) (hi : domains[i]? = some Di) (_hj : domains[j]? = some Dj)
    (hcov : ∀ name ∈ Dj.ToStrArray, isDomainAlreadyChecked name Di.ToStrArray = true) :
    keptDomain domains j Dj = none ∧
    deleteUnnecessaryDomains domains
      = domains.enum.filterMap (fun e => keptDomain domains e.1 e.2) ∧
    deleteUnnecessaryDomains [⟨"a.com".toList, []⟩, ⟨"a.com".toList, []⟩]
      = [⟨"a.com".toList, []⟩] ∧
    deleteUnnecessaryDomains [⟨"*.a.com".toList, []⟩, ⟨"x.a.com".toList, []⟩]
      = [⟨"*.a.com".toList, []⟩] := by
  refine ⟨?_, rfl, by decide, by decide⟩
  have h := checkDomain_covered j i Di hij domains 0 Dj (Nat.zero_le _) (by simpa using hi) hcov
  simp only [keptDomain, List.enum]
  simp [h]

theorem deleteUnnecessaryDomains_drops_covered_witness :
    keptDomain [⟨"*.a.com".toList, ["a.com".toList]⟩, ⟨"b.org".toList, []⟩,
        ⟨"x.a.com".toList, ["a.com".toList]⟩] 2 ⟨"x.a.com".toList, ["a.com".toList]⟩ = none ∧
    deleteUnnecessaryDomains [⟨"*.a.com".toList, ["a.com".toList]⟩, ⟨"b.org".toList, []⟩,
        ⟨"x.a.com".toList, ["a.com".toList]⟩]
      = ([⟨"*.a.com".toList, ["a.com".toList]⟩, ⟨"b.org".toList, []⟩,
        ⟨"x.a.com".toList, ["a.com".toList]⟩] : List Domain).enum.filterMap
          (fun e => keptDomain [⟨"*.a.com".toList, ["a.com".toList]⟩, ⟨"b.org".toList, []⟩,
            ⟨"x.a.com".toList, ["a.com".toList]⟩] e.1 e.2) ∧
    deleteUnnecessaryDomains [⟨"a.com".toList, []⟩, ⟨"a.com".toList, []⟩]
      = [⟨"a.com".toList, []⟩] ∧
    deleteUnnecessaryDomains [⟨"*.a.com".toList, []⟩, ⟨"x.a.com".toList, []⟩]
      = [⟨"*.a.com".toList, []⟩] :=
  deleteUnnecessaryDomains_drops_covered
    [⟨"*.a.com".toList, ["a.com".toList]⟩, ⟨"b.org".toList, []⟩,
      ⟨"x.a.com".toList, ["a.com".toList]⟩] 0 2
    ⟨"*.a.com".toList, ["a.com".toList]⟩ ⟨"x.a.com".toList, ["a.com".toList]⟩
    (by decide) (by decide) (by decide) (by decide)

/-! ## Certificate cache -/

theorem updateCertificate_append (cache : List Certificate) (r cert : Certificate)
    (h : ∀ c ∈ cache, c.Domain ≠ cert.Domain) :
    updateCertificate (cache ++ [r]) cert =
      if cert.Domain = r.Domain then
        some (cache ++ [{ r with Certificate := cert.Certificate, Key := cert.Key }])
      else none := by
  induction cache with
  | nil =>
    by_cases hd : cert.Domain = r.Domain <;> simp [updateCertificate, hd]
  | cons c cs ih =>
    have hc : ¬ cert.Domain = c.Domain := fun e => h c (by simp) e.symm
    have hcs : ∀ c ∈ cs, c.Domain ≠ cert.Domain := fun x hx => h x (List.mem_cons_of_mem _ hx)
    have ih1 := ih hcs
    by_cases hd : cert.Domain = r.Domain
    · simp only [hd, if_true] at ih1 ⊢
      simp only [List.cons_append, updateCertificate, ← hd, hc, if_false]
      have happ : cs.append [r] = cs ++ [r] := rfl
      rw [happ, ih1]
      simp [hd]
    · simp only [hd, if_false] at ih1 ⊢
      simp [updateCertificate, hc, ih1]

theorem updateCertificate_none (cache : List Certificate) (cert : Certificate)
    (h : ∀ c ∈ cache, c.Domain ≠ cert.Domain) : updateCertificate cache cert = none := by
  induction cache with
  | nil => rfl
  | cons c cs ih =>
    have hc : ¬ cert.Domain = c.Domain := fun e => h c (by simp) e.symm
    have hcs : ∀ c ∈ cs, c.Domain ≠ cert.Domain := fun x hx => h x (List.mem_cons_of_mem _ hx)
    simp [updateCertificate, hc, ih hcs]

/-- C4: the cache update is an upsert keyed by the Domain.  On a cache without a
record of either Domain, two records of one Domain leave the cached records as
they were, followed by one record of that Domain that carries the second
certificate and key; two records of different Domains are both appended, so the
cache grows by two. -/
theorem watchCertificate_upsert (cache : List Certificate) (r1 r2 : Certificate)
    (h1 : ∀ c ∈ cache, c.Domain ≠ r1.Domain) (h2 : ∀ c ∈ cache, c.Domain ≠ r2.Domain) :
    (r1.Domain = r2.Domain →
      watchCertificate (watchCertificate cache r1) r2 = cache ++ [r2] ∧
      ((watchCertificate (watchCertificate cache r1) r2).filter
        (fun c => decide (c.Domain = r2.Domain))).length = 1 ∧
      (∀ c ∈ watchCertificate (watchCertificate cache r1) r2, c.Domain = r2.Domain →
        c.Certificate = r2.Certificate ∧ c.Key = r2.Key) ∧
      (watchCertificate (watchCertificate cache r1) r2).take cache.length = cache) ∧
    (r1.Domain ≠ r2.Domain →
      watchCertificate (watchCertificate cache r1) r2 = cache ++ [r1, r2] ∧
      (watchCertificate (watchCertificate cache r1) r2).length = cache.length + 2) := by
  have e1 : watchCertificate cache r1 = cache ++ [r1] := by
    simp [watchCertificate, updateCertificate_none cache r1 h1]
  constructor
  · intro hd
    have e2 : watchCertificate (cache ++ [r1]) r2 = cache ++ [r2] := by
      simp only [watchCertificate, updateCertificate_append cache r1 r2 h2, hd.symm, if_true]
      cases r1
      cases r2
      simp_all
    rw [e1, e2]
    refine ⟨rfl, ?_, ?_, by simp⟩
    · have hf : cache.filter (fun c => decide (c.Domain = r2.Domain)) = [] := by
        rw [List.filter_eq_nil_iff]
        intro c hc
        simpa using h2 c hc
      simp [List.filter_append, hf]
    · intro c hc hcd
      rcases List.mem_append.mp hc with hc | hc
      · exact absurd hcd (h2 c hc)
      · simp at hc
        simp [hc]
  · intro hd
    have e2 : watchCertificate (cache ++ [r1]) r2 = cache ++ [r1, r2] := by
      have hne : ¬ r2.Domain = r1.Domain := fun e => hd e.symm
      simp only [watchCertificate, updateCertificate_append cache r1 r2 h2, hne, if_false]
      simp
    rw [e1, e2]
    simp

theorem watchCertificate_upsert_witness :
    watchCertificate (watchCertificate
        [{ Domain := ⟨"b.org".toList, []⟩, Certificate := [7], Key := [8] }]
        { Domain := ⟨"a.com".toList, []⟩, Certificate := [1], Key := [2] })
        { Domain := ⟨"a.com".toList, []⟩, Certificate := [3], Key := [4] }
      = [{ Domain := ⟨"b.org".toList, []⟩, Certificate := [7], Key := [8] }]
        ++ [{ Domain := ⟨"a.com".toList, []⟩, Certificate := [3], Key := [4] }] :=
  ((watchCertificate_upsert
    [{ Domain := ⟨"b.org".toList, []⟩, Certificate := [7], Key := [8] }]
    { Domain := ⟨"a.com".toList, []⟩, Certificate := [1], Key := [2] }
    { Domain := ⟨"a.com".toList, []⟩, Certificate := [3], Key := [4] }
    (by decide) (by decide)).1 rfl).1

/-! ## Resolving set -/

theorem isDomainAlreadyChecked_append_left (d : List Char) (l l2 : List (List Char))
    (h : isDomainAlreadyChecked d l = true) : isDomainAlreadyChecked d (l ++ l2) = true := by
  simp only [isDomainAlreadyChecked, List.any_append, Bool.or_eq_true] at h ⊢
  exact Or.inl h

theorem removeKeys_eq_filter (u keys : List (List Char)) :
    removeKeys keys u = keys.filter (fun k => decide (k ∉ u)) := by
  induction u generalizing keys with
  | nil => simp [removeKeys]
  | cons d u ih =>
    have h := ih (keys.filter (fun k => k != d))
    simp only [removeKeys, List.foldl_cons] at h ⊢
    rw [h, List.filter_filter]
    congr 1
    funext k
    by_cases hk : k = d <;> simp [hk]

theorem addKeys_eq_append (u keys : List (List Char)) :
    ∃ extra, addKeys keys u = keys ++ extra ∧ ∀ e ∈ extra, e ∈ u := by
  induction u generalizing keys with
  | nil => exact ⟨[], by simp [addKeys], by simp⟩
  | cons d u ih =>
    simp only [addKeys, List.foldl_cons]
    by_cases hd : d ∈ keys
    · obtain ⟨extra, he, hm⟩ := ih keys
      refine ⟨extra, ?_, fun e h => List.mem_cons_of_mem _ (hm e h)⟩
      simpa [addKeys, hd] using he
    · obtain ⟨extra, he, hm⟩ := ih (keys ++ [d])
      refine ⟨d :: extra, ?_, ?_⟩
      · simpa [addKeys, hd] using he
      · intro e h
        rcases List.mem_cons.mp h with h | h
        · simp [h]
        · exact List.mem_cons_of_mem _ (hm e h)

theorem mem_addKeys (u keys : List (List Char)) (n : List Char) (hn : n ∈ u) :
    n ∈ addKeys keys u := by
  induction u generalizing keys with
  | nil => simp at hn
  | cons d u ih =>
    have hmono : ∀ (v m : List (List Char)) (x : List Char), x ∈ m → x ∈ addKeys m v := by
      intro v m x hx
      obtain ⟨extra, he, _⟩ := addKeys_eq_append v m
      rw [he]
      exact List.mem_append_left _ hx
    simp only [addKeys, List.foldl_cons]
    rcases List.mem_cons.mp hn with h | h
    · subst h
      apply hmono
      by_cases hd : n ∈ keys <;> simp [hd]
    · exact ih _ h

/-- Marking names that are not keys and unmarking them gives the keys back. -/
theorem removeKeys_addKeys (u keys : List (List Char)) (h : ∀ n ∈ u, n ∉ keys) :
    removeKeys (addKeys keys u) u = keys := by
  obtain ⟨extra, he, hm⟩ := addKeys_eq_append u keys
  rw [he, removeKeys_eq_filter, List.filter_append]
  have h1 : keys.filter (fun k => decide (k ∉ u)) = keys := by
    rw [List.filter_eq_self]
    intro k hk
    simpa using fun hu => h k hu hk
  have h2 : extra.filter (fun k => decide (k ∉ u)) = [] := by
    rw [List.filter_eq_nil_iff]
    intro k hk
    simpa using hm k hk
  rw [h1, h2, List.append_nil]

theorem getClient_resolvingDomains (env : Environment) (p : Provider) :
    (getClient env p).2.resolvingDomains = p.resolvingDomains := by
  unfold getClient
  cases p.client with
  | some c => rfl
  | none =>
    simp only []
    split_ifs <;> try rfl
    cases selectChallenge env p <;> rfl

theorem obtainCertificate_resolvingDomains (env : Environment) (p : Provider)
    (domains unchecked : List (List Char)) :
    (obtainCertificate env p domains unchecked).provider.resolvingDomains
      = p.resolvingDomains := by
  have h := getClient_resolvingDomains env p
  unfold obtainCertificate
  rcases hg : getClient env p with ⟨res, p1⟩
  rw [hg] at h
  cases res with
  | error e => exact h
  | ok c =>
    simp only []
    cases env.obtain domains with
    | error => exact h
    | nilResource => exact h
    | resource certificate privateKey =>
      simp only []
      split_ifs <;> exact h

theorem obtainCertificate_marked (env : Environment) (p : Provider)
    (domains unchecked : List (List Char)) :
    (obtainCertificate env p domains unchecked).marked = unchecked := by
  unfold obtainCertificate
  rcases getClient env p with ⟨res, p1⟩
  cases res with
  | error e => rfl
  | ok c =>
    simp only []
    cases env.obtain domains with
    | error => rfl
    | nilResource => rfl
    | resource certificate privateKey =>
      simp only []
      split_ifs <;> rfl

/-- A name that is not covered is not a key of the resolving map, when no key
holds a comma. -/
theorem not_mem_resolvingDomains_of_unchecked (p : Provider) (b : Bool)
    (domains : List (List Char)) (hcomma : ∀ g ∈ p.resolvingDomains, ',' ∉ g)
    (n : List Char) (hn : n ∈ getUncheckedDomains p domains b) : n ∉ p.resolvingDomains := by
  intro hmem
  simp only [getUncheckedDomains, searchUncheckedDomains, List.mem_filter,
    Bool.not_eq_true'] at hn
  have hcov : isDomainAlreadyChecked n (allDomains p b) = true := by
    rw [isDomainAlreadyChecked_eq_true_iff]
    refine ⟨n, ?_, n, ?_, MatchDomain_self n⟩
    · simp [allDomains, hmem]
    · rw [strings.Split_of_not_mem _ _ (hcomma n hmem)]
      simp
  rw [hn.2] at hcov
  exact Bool.false_ne_true hcov

theorem isDomainAlreadyChecked_append_right (d : List Char) (l l2 : List (List Char))
    (h : isDomainAlreadyChecked d l2 = true) : isDomainAlreadyChecked d (l ++ l2) = true := by
  simp only [isDomainAlreadyChecked, List.any_append, Bool.or_eq_true] at h ⊢
  exact Or.inr h

theorem allDomains_eq (p : Provider) (domainFromConfigurationFile : Bool) :
    allDomains p (!domainFromConfigurationFile) =
      p.tlsStoreDomains
        ++ p.certificates.map (fun cert => strings.Join cert.Domain.ToStrArray ',')
        ++ p.resolvingDomains
        ++ (if domainFromConfigurationFile = true then []
            else p.Domains.map (fun domain => strings.Join domain.ToStrArray ',')) := by
  cases domainFromConfigurationFile <;> simp [allDomains]

theorem resolveCertificate_marked (env : Environment) (p : Provider) (domain : Domain)
    (domainFromConfigurationFile : Bool) (domains : List (List Char))
    (hv : getValidDomains p domain domainFromConfigurationFile = .ok domains) :
    (resolveCertificate env p domain domainFromConfigurationFile).marked
      = getUncheckedDomains p domains (!domainFromConfigurationFile) := by
  unfold resolveCertificate
  rw [hv]
  simp only []
  split_ifs with h0
  · exact (List.length_eq_zero.mp h0).symm
  · exact obtainCertificate_marked _ _ _ _

/-! ## Resolution -/

/-- C5: when every validated name of the request is covered by the resolving
names, the cached certificates' groups or the TLS store's domains,
`resolveCertificate` returns no certificate and no error, passes nothing to the
client's obtain operation, sends no record to the cache and leaves the resolving
names as they were. -/
theorem resolveCertificate_covered (env : Environment) (p : Provider) (domain : Domain)
    (domainFromConfigurationFile : Bool) (domains : List (List Char))
    (hv : getValidDomains p domain domainFromConfigurationFile = .ok domains)
    (hcov : ∀ n ∈ domains, isDomainAlreadyChecked n
      (p.tlsStoreDomains
        ++ p.certificates.map (fun cert => strings.Join cert.Domain.ToStrArray ',')
        ++ p.resolvingDomains) = true) :
    (resolveCertificate env p domain domainFromConfigurationFile).result = .ok none ∧
    (resolveCertificate env p domain domainFromConfigurationFile).obtained = [] ∧
    (resolveCertificate env p domain domainFromConfigurationFile).delivered = [] ∧
    (resolveCertificate env p domain domainFromConfigurationFile).marked = [] ∧
    (resolveCertificate env p domain domainFromConfigurationFile).provider.resolvingDomains
      = p.resolvingDomains := by
  have hu : getUncheckedDomains p domains (!domainFromConfigurationFile) = [] := by
    simp only [getUncheckedDomains, searchUncheckedDomains]
    rw [List.filter_eq_nil_iff]
    intro n hn
    rw [allDomains_eq, isDomainAlreadyChecked_append_left _ _ _ (hcov n hn)]
    simp
  unfold resolveCertificate
  rw [hv]
  simp [hu]

theorem resolveCertificate_covered_witness :
    (resolveCertificate (sampleEnvironment (.resource [3] [4]))
      (sampleProvider [] [] ["a.com".toList]) ⟨"a.com".toList, []⟩ false).result = .ok none :=
  (resolveCertificate_covered (sampleEnvironment (.resource [3] [4]))
    (sampleProvider [] [] ["a.com".toList]) ⟨"a.com".toList, []⟩ false ["a.com".toList]
    rfl (by decide)).1

/-- C6: when no resolving name holds a comma, the resolving names after
`resolveCertificate` are those before the call, whatever the request and the
outcomes of the external steps: every name that the call marked was a member
while the client ran and is none afterwards, and every earlier member is still
one. -/
theorem resolveCertificate_resolvingDomains (env : Environment) (p : Provider)
    (domain : Domain) (domainFromConfigurationFile : Bool)
    (hcomma : ∀ g ∈ p.resolvingDomains, ',' ∉ g) :
    (resolveCertificate env p domain domainFromConfigurationFile).provider.resolvingDomains
      = p.resolvingDomains ∧
    (∀ n ∈ (resolveCertificate env p domain domainFromConfigurationFile).marked,
      n ∈ (addResolvingDomains p
        (resolveCertificate env p domain domainFromConfigurationFile).marked).resolvingDomains ∧
      n ∉ (resolveCertificate env p domain
        domainFromConfigurationFile).provider.resolvingDomains) ∧
    (∀ g ∈ p.resolvingDomains,
      g ∈ (resolveCertificate env p domain
        domainFromConfigurationFile).provider.resolvingDomains) := by
  have key : (resolveCertificate env p domain
      domainFromConfigurationFile).provider.resolvingDomains = p.resolvingDomains ∧
      ∀ n ∈ (resolveCertificate env p domain domainFromConfigurationFile).marked,
        n ∉ p.resolvingDomains := by
    cases hv : getValidDomains p domain domainFromConfigurationFile with
    | error e =>
      unfold resolveCertificate
      rw [hv]
      simp
    | ok domains =>
      have hm := resolveCertificate_marked env p domain domainFromConfigurationFile domains hv
      have hnot := not_mem_resolvingDomains_of_unchecked p (!domainFromConfigurationFile)
        domains hcomma
      refine ⟨?_, fun n hn => hnot n (hm ▸ hn)⟩
      unfold resolveCertificate
      rw [hv]
      simp only []
      split_ifs with h0
      · rfl
      · simp only [removeResolvingDomains, obtainCertificate_resolvingDomains,
          addResolvingDomains]
        exact removeKeys_addKeys _ _ hnot
  refine ⟨key.1, fun n hn => ⟨?_, ?_⟩, fun g hg => ?_⟩
  · exact mem_addKeys _ _ n hn
  · rw [key.1]
    exact key.2 n hn
  · rw [key.1]
    exact hg

theorem resolveCertificate_resolvingDomains_witness :
    (resolveCertificate (sampleEnvironment .error) (sampleProvider [] [] ["a.com".toList])
      ⟨"b.org".toList, []⟩ false).provider.resolvingDomains = ["a.com".toList] :=
  (resolveCertificate_resolvingDomains (sampleEnvironment .error)
    (sampleProvider [] [] ["a.com".toList]) ⟨"b.org".toList, []⟩ false (by decide)).1

/-! ## Renewal -/

theorem needsRenewal_iff (env : Environment) (now : Int) (cert : Certificate) :
    needsRenewal env now cert = true ↔
      getX509Certificate env cert = none ∨
      ∃ crt, getX509Certificate env cert = some crt ∧ crt.NotAfter < now + 24 * 30 * Hour := by
  unfold needsRenewal
  cases getX509Certificate env cert with
  | none => simp
  | some crt => simp

/-- C7: a cached record whose certificate parses and expires exactly 30 days
(720 hours) after the time of the sweep has 30 days left, and the sweep of
`renewCertificates` passes no record to the client's renew operation; ten days
before expiry the record is renewed, forty-five days before it is not. -/
theorem renewCertificates_thirty_days_left :
    ((1700000000000000000 + 24 * 30 * Hour) - 1700000000000000000 ≤ 24 * 30 * Hour) ∧
    needsRenewal (renewalEnvironment (1700000000000000000 + 24 * 30 * Hour))
      1700000000000000000
      { Domain := ⟨"a.com".toList, []⟩, Certificate := [1], Key := [2] } = false ∧
    (renewCertificates (renewalEnvironment (1700000000000000000 + 24 * 30 * Hour))
      1700000000000000000
      (sampleProvider [] [{ Domain := ⟨"a.com".toList, []⟩, Certificate := [1], Key := [2] }]
        [])).renewed = [] ∧
    (renewCertificates (renewalEnvironment (1700000000000000000 + 24 * 10 * Hour))
      1700000000000000000
      (sampleProvider [] [{ Domain := ⟨"a.com".toList, []⟩, Certificate := [1], Key := [2] }]
        [])).renewed = [{ Domain := ⟨"a.com".toList, []⟩, Certificate := [1], Key := [2] }] ∧
    (renewCertificates (renewalEnvironment (1700000000000000000 + 24 * 45 * Hour))
      1700000000000000000
      (sampleProvider [] [{ Domain := ⟨"a.com".toList, []⟩, Certificate := [1], Key := [2] }]
        [])).renewed = [] := by
  refine ⟨by decide, by decide, by decide, by decide, by decide⟩

/-! ## The obtain request -/

theorem obtainCertificate_obtained (env : Environment) (p : Provider)
    (domains unchecked request : List (List Char))
    (h : request ∈ (obtainCertificate env p domains unchecked).obtained) :
    request = domains := by
  unfold obtainCertificate at h
  revert h
  rcases getClient env p with ⟨res, p1⟩
  cases res with
  | error e => simp
  | ok c =>
    simp only []
    cases env.obtain domains with
    | error => simp
    | nilResource => simp
    | resource certificate privateKey =>
      simp only []
      split_ifs <;> simp

/-- Whenever `resolveCertificate` reaches the client's obtain operation, the
request carries the validated names, and the unchecked names are what is
marked. -/
theorem resolveCertificate_obtained (env : Environment) (p : Provider) (domain : Domain)
    (domainFromConfigurationFile : Bool) (request : List (List Char))
    (h : request ∈ (resolveCertificate env p domain domainFromConfigurationFile).obtained) :
    getValidDomains p domain domainFromConfigurationFile = .ok request ∧
    (resolveCertificate env p domain domainFromConfigurationFile).marked
      = getUncheckedDomains p request (!domainFromConfigurationFile) := by
  cases hv : getValidDomains p domain domainFromConfigurationFile with
  | error e =>
    unfold resolveCertificate at h
    rw [hv] at h
    simp at h
  | ok domains =>
    have hm := resolveCertificate_marked env p domain domainFromConfigurationFile domains hv
    unfold resolveCertificate at h
    rw [hv] at h
    simp only [] at h
    split_ifs at h with h0
    · simp at h
    · have hr : request = domains := obtainCertificate_obtained _ _ _ _ _ h
      subst hr
      exact ⟨rfl, hm⟩

/-- C8: with `a.com` already cached, the request for `a.com` with the SAN `b.com`
leaves `b.com` unchecked; `b.com` alone is marked as resolving and keys the
delivered record, and the client's obtain operation receives both `a.com` and
`b.com`. -/
theorem resolveCertificate_obtains_validated_domains :
    (resolveCertificate (sampleEnvironment (.resource [3] [4]))
      (sampleProvider [] [{ Domain := ⟨"a.com".toList, []⟩, Certificate := [1], Key := [2] }] [])
      ⟨"a.com".toList, ["b.com".toList]⟩ true).obtained
      = [["a.com".toList, "b.com".toList]] ∧
    (resolveCertificate (sampleEnvironment (.resource [3] [4]))
      (sampleProvider [] [{ Domain := ⟨"a.com".toList, []⟩, Certificate := [1], Key := [2] }] [])
      ⟨"a.com".toList, ["b.com".toList]⟩ true).marked = ["b.com".toList] ∧
    (resolveCertificate (sampleEnvironment (.resource [3] [4]))
      (sampleProvider [] [{ Domain := ⟨"a.com".toList, []⟩, Certificate := [1], Key := [2] }] [])
      ⟨"a.com".toList, ["b.com".toList]⟩ true).delivered
      = [{ Domain := ⟨"b.com".toList, []⟩, Certificate := [3], Key := [4] }] := by
  refine ⟨by decide, by decide, by decide⟩

/-! ## Static domains among the existent domains -/

/-- C9, as stated, fails: for the live-discovered request `a.com`
(`domainFromConfigurationFile = false`) with the static entry `a.com`, the static
group is among the existent domains and the name is not unchecked, so nothing is
marked or obtained; for the same request from the static configuration the
static group is not among them and the name is unchecked. -/
theorem resolveCertificate_live_checks_static :
    "a.com".toList ∈ allDomains (sampleProvider [⟨"a.com".toList, []⟩] [] []) (!false) ∧
    getUncheckedDomains (sampleProvider [⟨"a.com".toList, []⟩] [] []) ["a.com".toList] (!false)
      = [] ∧
    (resolveCertificate (sampleEnvironment (.resource [3] [4]))
      (sampleProvider [⟨"a.com".toList, []⟩] [] []) ⟨"a.com".toList, []⟩ false).marked = [] ∧
    (resolveCertificate (sampleEnvironment (.resource [3] [4]))
      (sampleProvider [⟨"a.com".toList, []⟩] [] []) ⟨"a.com".toList, []⟩ false).obtained = [] ∧
    "a.com".toList ∉ allDomains (sampleProvider [⟨"a.com".toList, []⟩] [] []) (!true) ∧
    (resolveCertificate (sampleEnvironment (.resource [3] [4]))
      (sampleProvider [⟨"a.com".toList, []⟩] [] []) ⟨"a.com".toList, []⟩ true).marked
      = ["a.com".toList] := by
  refine ⟨by decide, by decide, by decide, by decide, by decide, by decide⟩

/-- C9, amended: the existent domains that `resolveCertificate` subtracts from
the validated names are the TLS store's domains, the cached certificates' groups
and the resolving names, followed by the static groups exactly when the request
does not come from the static configuration; so a live-discovered name that a
static entry covers is not unchecked. -/
theorem resolveCertificate_existent_domains (env : Environment) (p : Provider)
    (domain : Domain) (domainFromConfigurationFile : Bool) (domains : List (List Char))
    (hv : getValidDomains p domain domainFromConfigurationFile = .ok domains) :
    (resolveCertificate env p domain domainFromConfigurationFile).marked
      = searchUncheckedDomains domains
          (p.tlsStoreDomains
            ++ p.certificates.map (fun cert => strings.Join cert.Domain.ToStrArray ',')
            ++ p.resolvingDomains
            ++ (if domainFromConfigurationFile = true then []
                else p.Domains.map (fun domain => strings.Join domain.ToStrArray ','))) ∧
    (domainFromConfigurationFile = false →
      ∀ n, isDomainAlreadyChecked n
          (p.Domains.map (fun domain => strings.Join domain.ToStrArray ',')) = true →
        n ∉ (resolveCertificate env p domain domainFromConfigurationFile).marked) := by
  have hm := resolveCertificate_marked env p domain domainFromConfigurationFile domains hv
  rw [getUncheckedDomains, allDomains_eq] at hm
  refine ⟨hm, ?_⟩
  intro hf n hn hmem
  rw [hm, hf] at hmem
  simp only [searchUncheckedDomains, List.mem_filter, Bool.not_eq_true'] at hmem
  have := isDomainAlreadyChecked_append_right n
    (p.tlsStoreDomains
      ++ p.certificates.map (fun cert => strings.Join cert.Domain.ToStrArray ',')
      ++ p.resolvingDomains) _ hn
  simp only [Bool.false_eq_true, if_false] at hmem
  rw [this] at hmem
  exact Bool.noConfusion hmem.2

theorem resolveCertificate_existent_domains_witness :
    (resolveCertificate (sampleEnvironment (.resource [3] [4]))
      (sampleProvider [⟨"a.com".toList, []⟩] [] []) ⟨"b.org".toList, []⟩ false).marked
      = searchUncheckedDomains ["b.org".toList]
          ([] ++ ([] : List Certificate).map (fun cert => strings.Join cert.Domain.ToStrArray ',')
            ++ [] ++ (if false = true then []
                else [(⟨"a.com".toList, []⟩ : Domain)].map
                  (fun domain => strings.Join domain.ToStrArray ','))) :=
  (resolveCertificate_existent_domains (sampleEnvironment (.resource [3] [4]))
    (sampleProvider [⟨"a.com".toList, []⟩] [] []) ⟨"b.org".toList, []⟩ false ["b.org".toList]
    rfl).1

/-! ## What pruning removes -/

/-- C10, as stated, fails: in the list of `x.a.com` followed by `*.a.com` the
first entry is not kept; the later wildcard removes it and the pruned list is
`*.a.com` alone. -/
theorem deleteUnnecessaryDomains_later_wildcard :
    keptDomain [⟨"x.a.com".toList, []⟩, ⟨"*.a.com".toList, []⟩] 0 ⟨"x.a.com".toList, []⟩
      = none ∧
    deleteUnnecessaryDomains [⟨"x.a.com".toList, []⟩, ⟨"*.a.com".toList, []⟩]
      = [⟨"*.a.com".toList, []⟩] ∧
    (⟨"x.a.com".toList, []⟩ : Domain)
      ∉ deleteUnnecessaryDomains [⟨"x.a.com".toList, []⟩, ⟨"*.a.com".toList, []⟩] := by
  refine ⟨by decide, by decide, by decide⟩

theorem Domain.mem_Set_of_mem (d : Domain) (names : List (List Char)) (n : List Char)
    (hn : n ∈ names) (hne : n ≠ []) : n ∈ (d.Set names).ToStrArray := by
  match names, hn with
  | m :: rest, hn =>
    simp only [Domain.Set, Domain.ToStrArray, List.mem_append]
    rcases List.mem_cons.mp hn with h | h
    · left
      subst h
      have : 0 < n.length := List.length_pos.mpr hne
      simp [this]
    · exact Or.inr h

/-- A non-empty name of the entry under check that the inner loop does not leave
in a kept entry is removed on account of one of the entries visited: an earlier
entry that holds or covers the name, or an entry whose wildcard `Main` covers
it. -/
theorem checkDomain_removed (j : Nat) (n : List Char) (hne : n ≠ []) :
    ∀ (l : List (Nat × Domain)) (cur : Domain), n ∈ cur.ToStrArray →
      ((checkDomain j l cur).1 = true → n ∉ (checkDomain j l cur).2.ToStrArray) →
      ∃ e ∈ l, e.1 ≠ j ∧
        ((e.1 < j ∧ (n ∈ e.2.ToStrArray ∨ isDomainAlreadyChecked n e.2.ToStrArray = true)) ∨
          (e.2.Main ≠ n ∧ strings.HasPrefix e.2.Main ['*'] = true ∧
            isDomainAlreadyChecked n [e.2.Main] = true)) := by
  intro l
  induction l with
  | nil =>
    intro cur hn h
    exact absurd hn (h rfl)
  | cons e rest ih =>
    obtain ⟨k, d⟩ := e
    intro cur hn h
    have lift : (∃ e ∈ rest, e.1 ≠ j ∧
        ((e.1 < j ∧ (n ∈ e.2.ToStrArray ∨ isDomainAlreadyChecked n e.2.ToStrArray = true)) ∨
          (e.2.Main ≠ n ∧ strings.HasPrefix e.2.Main ['*'] = true ∧
            isDomainAlreadyChecked n [e.2.Main] = true))) →
        ∃ e ∈ (k, d) :: rest, e.1 ≠ j ∧
        ((e.1 < j ∧ (n ∈ e.2.ToStrArray ∨ isDomainAlreadyChecked n e.2.ToStrArray = true)) ∨
          (e.2.Main ≠ n ∧ strings.HasPrefix e.2.Main ['*'] = true ∧
            isDomainAlreadyChecked n [e.2.Main] = true)) := by
      rintro ⟨e, he, hp⟩
      exact ⟨e, List.mem_cons_of_mem _ he, hp⟩
    by_cases hjk : j = k
    · simp only [checkDomain, hjk, if_true] at h
      exact lift (ih cur hn (by simpa [hjk] using h))
    · have hkj : k ≠ j := fun e => hjk e.symm
      simp only [checkDomain, hjk, if_false] at h
      by_cases hd : d = cur
      · simp only [hd, if_true] at h
        by_cases hlt : k < j
        · exact ⟨(k, d), by simp, hkj, Or.inl ⟨hlt, Or.inl (hd ▸ hn)⟩⟩
        · have hnot : ¬ j > k := hlt
          exact absurd hn (h (by simp [hnot]))
      · simp only [hd, if_false] at h
        have filtered : n ∉ newDomainsToCheck j k d cur →
            ∃ e ∈ (k, d) :: rest, e.1 ≠ j ∧
              ((e.1 < j ∧
                  (n ∈ e.2.ToStrArray ∨ isDomainAlreadyChecked n e.2.ToStrArray = true)) ∨
                (e.2.Main ≠ n ∧ strings.HasPrefix e.2.Main ['*'] = true ∧
                  isDomainAlreadyChecked n [e.2.Main] = true)) := by
          intro hnot
          refine ⟨(k, d), by simp, hkj, ?_⟩
          unfold newDomainsToCheck at hnot
          rw [List.mem_filter] at hnot
          have hc : ¬ (!((decide (k < j) && isDomainAlreadyChecked n d.ToStrArray) ||
              (d.Main != n && strings.HasPrefix d.Main ['*'] &&
                isDomainAlreadyChecked n [d.Main]))) = true := fun hc => hnot ⟨hn, hc⟩
          simp only [Bool.not_eq_true', Bool.not_eq_false, Bool.or_eq_true, Bool.and_eq_true,
            decide_eq_true_eq, bne_iff_ne, ne_eq] at hc
          rcases hc with ⟨h1, h2⟩ | ⟨⟨h1, h2⟩, h3⟩
          · exact Or.inl ⟨h1, Or.inr h2⟩
          · exact Or.inr ⟨h1, h2, h3⟩
        by_cases hnames : newDomainsToCheck j k d cur = []
        · exact filtered (by simp [hnames])
        · simp only [hnames, if_false] at h
          by_cases hmem : n ∈ newDomainsToCheck j k d cur
          · exact lift (ih _ (Domain.mem_Set_of_mem cur _ n hmem hne) h)
          · exact filtered hmem

/-- C10, amended: a non-empty name of the entry at index `j` that is missing from
the pruned list (the entry is dropped, or kept without the name) is held or
covered by an entry at a strictly lower index, or is covered by the wildcard
`Main`, different from the name, of another entry at any index. -/
theorem deleteUnnecessaryDomains_removed_only_if (domains : List Domain) (j : Nat)
    (Dj : Domain) (n : List Char) (_hj : domains[j]? = some Dj) (hn : n ∈ Dj.ToStrArray)
    (hne : n ≠ [])
    (hrem : ∀ d, keptDomain domains j Dj = some d → n ∉ d.ToStrArray) :
    ∃ k Dk, domains[k]? = some Dk ∧ k ≠ j ∧
      ((k < j ∧ (n ∈ Dk.ToStrArray ∨ isDomainAlreadyChecked n Dk.ToStrArray = true)) ∨
        (Dk.Main ≠ n ∧ strings.HasPrefix Dk.Main ['*'] = true ∧
          isDomainAlreadyChecked n [Dk.Main] = true)) := by
  have h := checkDomain_removed j n hne domains.enum Dj hn (by
    intro hk
    apply hrem
    simp [keptDomain, hk])
  obtain ⟨⟨k, Dk⟩, hmem, hp⟩ := h
  exact ⟨k, Dk, List.mk_mem_enum_iff_getElem?.mp hmem, hp⟩

theorem deleteUnnecessaryDomains_removed_only_if_witness :
    ∃ k Dk, ([⟨"x.a.com".toList, []⟩, ⟨"*.a.com".toList, []⟩] : List Domain)[k]? = some Dk ∧
      k ≠ 0 ∧
      ((k < 0 ∧ ("x.a.com".toList ∈ Dk.ToStrArray ∨
          isDomainAlreadyChecked "x.a.com".toList Dk.ToStrArray = true)) ∨
        (Dk.Main ≠ "x.a.com".toList ∧ strings.HasPrefix Dk.Main ['*'] = true ∧
          isDomainAlreadyChecked "x.a.com".toList [Dk.Main] = true)) :=
  deleteUnnecessaryDomains_removed_only_if
    [⟨"x.a.com".toList, []⟩, ⟨"*.a.com".toList, []⟩] 0 ⟨"x.a.com".toList, []⟩
    "x.a.com".toList (by decide) (by decide) (by decide) (by decide)

/-! ## Pruning twice -/

/-- C11: on the list of `x.a.com`, `x.a.com` and `*.a.com`, pruning keeps
`x.a.com` and `*.a.com` (the scan of the first entry stops at its duplicate and
never reaches the wildcard), and pruning that result drops `x.a.com`: the second
pruning does not return its input. -/
theorem deleteUnnecessaryDomains_twice :
    deleteUnnecessaryDomains
        [⟨"x.a.com".toList, []⟩, ⟨"x.a.com".toList, []⟩, ⟨"*.a.com".toList, []⟩]
      = [⟨"x.a.com".toList, []⟩, ⟨"*.a.com".toList, []⟩] ∧
    deleteUnnecessaryDomains (deleteUnnecessaryDomains
        [⟨"x.a.com".toList, []⟩, ⟨"x.a.com".toList, []⟩, ⟨"*.a.com".toList, []⟩])
      = [⟨"*.a.com".toList, []⟩] ∧
    deleteUnnecessaryDomains (deleteUnnecessaryDomains
        [⟨"x.a.com".toList, []⟩, ⟨"x.a.com".toList, []⟩, ⟨"*.a.com".toList, []⟩])
      ≠ deleteUnnecessaryDomains
        [⟨"x.a.com".toList, []⟩, ⟨"x.a.com".toList, []⟩, ⟨"*.a.com".toList, []⟩] ∧
    checkDomain 0
        ([⟨"x.a.com".toList, []⟩, ⟨"x.a.com".toList, []⟩, ⟨"*.a.com".toList, []⟩] :
          List Domain).enum ⟨"x.a.com".toList, []⟩
      = (true, ⟨"x.a.com".toList, []⟩) ∧
    isDomainAlreadyChecked "x.a.com".toList ["*.a.com".toList] = true := by
  refine ⟨by decide, by decide, by decide, by decide, by decide⟩

/-! ## Wildcards and the challenge -/

/-- A request whose `Main` starts with `*` reaches the client's obtain operation
only when wildcards are allowed for the call and a DNSChallenge is configured. -/
theorem resolveCertificate_wildcard_Main (env : Environment) (p : Provider) (domain : Domain)
    (wildcardAllowed : Bool) (request : List (List Char))
    (h : request ∈ (resolveCertificate env p domain wildcardAllowed).obtained)
    (hw : strings.HasPrefix domain.Main ['*'] = true) :
    wildcardAllowed = true ∧ p.DNSChallenge.isSome = true := by
  have hv := (resolveCertificate_obtained env p domain wildcardAllowed request h).1
  unfold getValidDomains at hv
  simp only [hw, if_true] at hv
  split_ifs at hv with h0 h1 h2 h3
  · cases wildcardAllowed
    · simp at h1
    · cases hd : p.DNSChallenge with
      | none => simp [hd] at h2
      | some c => simp

/-- C12: with an HTTP challenge and no DNSChallenge, the request for `a.com` with
the SAN `*.a.com` passes `getValidDomains` for both values of `wildcardAllowed`,
the client is given the HTTP-01 challenge and its obtain operation receives the
wildcard name; with a DNSChallenge that names no provider next to the HTTP
challenge, the same holds for the request whose `Main` is `*.a.com`. -/
theorem resolveCertificate_wildcard_http01 :
    (sampleProvider [] [] []).DNSChallenge = none ∧
    (resolveCertificate (sampleEnvironment (.resource [3] [4])) (sampleProvider [] [] [])
      ⟨"a.com".toList, ["*.a.com".toList]⟩ false).obtained
      = [["a.com".toList, "*.a.com".toList]] ∧
    (resolveCertificate (sampleEnvironment (.resource [3] [4])) (sampleProvider [] [] [])
      ⟨"a.com".toList, ["*.a.com".toList]⟩ false).provider.client = some .http01 ∧
    (resolveCertificate (sampleEnvironment (.resource [3] [4])) (sampleProvider [] [] [])
      ⟨"a.com".toList, ["*.a.com".toList]⟩ false).result = .ok (some ([3], [4])) ∧
    (resolveCertificate (sampleEnvironment (.resource [3] [4])) (sampleProvider [] [] [])
      ⟨"a.com".toList, ["*.a.com".toList]⟩ true).obtained
      = [["a.com".toList, "*.a.com".toList]] ∧
    (resolveCertificate (sampleEnvironment (.resource [3] [4])) (sampleProvider [] [] [])
      ⟨"a.com".toList, ["*.a.com".toList]⟩ true).provider.client = some .http01 ∧
    (resolveCertificate (sampleEnvironment (.resource [3] [4]))
      { sampleProvider [] [] [] with DNSChallenge := some ⟨[], 0, [], false⟩ }
      ⟨"*.a.com".toList, []⟩ true).obtained = [["*.a.com".toList]] ∧
    (resolveCertificate (sampleEnvironment (.resource [3] [4]))
      { sampleProvider [] [] [] with DNSChallenge := some ⟨[], 0, [], false⟩ }
      ⟨"*.a.com".toList, []⟩ true).provider.client = some .http01 := by
  refine ⟨rfl, by decide, by decide, rfl, by decide, by decide, by decide, by decide⟩

/-! ## Coverage after pruning -/

theorem MatchDomain_cases (n e : List Char) (h : MatchDomain n e = true) :
    e = n ∨ ∃ suffix, e = '*' :: '.' :: suffix := by
  simp only [MatchDomain, Bool.or_eq_true, Bool.and_eq_true, beq_iff_eq] at h
  rcases h with h | ⟨⟨h, _⟩, _⟩
  · exact Or.inl h.symm
  · right
    match e, h with
    | [], h => simp [strings.HasPrefix] at h
    | [c1], h => simp [strings.HasPrefix] at h
    | c1 :: c2 :: rest, h =>
      simp only [strings.HasPrefix, List.isPrefixOf, Bool.and_eq_true, beq_iff_eq] at h
      exact ⟨rest, by rw [← h.1, ← h.2.1]⟩

/-- A name of the wildcard form is matched by itself alone. -/
theorem MatchDomain_wildcard (suffix e : List Char)
    (h : MatchDomain ('*' :: '.' :: suffix) e = true) : e = '*' :: '.' :: suffix := by
  rcases MatchDomain_cases _ _ h with h1 | ⟨s2, h2⟩
  · exact h1
  · subst h2
    have hd : ('*' :: '.' :: suffix).dropWhile (fun c => c != '.') = '.' :: suffix := by
      simp [List.dropWhile_cons]
    simp only [MatchDomain, Bool.or_eq_true, Bool.and_eq_true, beq_iff_eq, hd] at h
    rcases h with h | ⟨_, h⟩
    · exact h.symm
    · simp at h
      rw [h]

theorem keptDomain_mem (domains : List Domain) (k : Nat) (D d : Domain)
    (hk : domains[k]? = some D) (hd : keptDomain domains k D = some d) :
    d ∈ deleteUnnecessaryDomains domains := by
  unfold deleteUnnecessaryDomains
  rw [List.mem_filterMap]
  exact ⟨(k, D), List.mk_mem_enum_iff_getElem?.mpr hk, hd⟩

/-- A non-empty name of an entry stays in the kept entry, or one of the other
entries accounts for its removal. -/
theorem keptDomain_or_removed (domains : List Domain) (j : Nat) (Dj : Domain)
    (n : List Char) (hn : n ∈ Dj.ToStrArray) (hne : n ≠ []) :
    (∃ d, keptDomain domains j Dj = some d ∧ n ∈ d.ToStrArray) ∨
    ∃ k Dk, domains[k]? = some Dk ∧ k ≠ j ∧
      ((k < j ∧ (n ∈ Dk.ToStrArray ∨ isDomainAlreadyChecked n Dk.ToStrArray = true)) ∨
        (Dk.Main ≠ n ∧ strings.HasPrefix Dk.Main ['*'] = true ∧
          isDomainAlreadyChecked n [Dk.Main] = true)) := by
  by_cases hk : ∃ d, keptDomain domains j Dj = some d ∧ n ∈ d.ToStrArray
  · exact Or.inl hk
  · right
    have h := checkDomain_removed j n hne domains.enum Dj hn (by
      intro h1 h2
      apply hk
      exact ⟨_, by simp [keptDomain, h1], h2⟩)
    obtain ⟨⟨k, Dk⟩, hmem, hp⟩ := h
    exact ⟨k, Dk, List.mk_mem_enum_iff_getElem?.mp hmem, hp⟩

/-- Every name that occurs in the list has a first entry that holds it. -/
theorem exists_first_entry (domains : List Domain) (n : List Char) (D : Domain)
    (hD : D ∈ domains) (hn : n ∈ D.ToStrArray) :
    ∃ (k : Nat) (Dk : Domain), domains[k]? = some Dk ∧ n ∈ Dk.ToStrArray ∧
      ∀ (i : Nat) (Di : Domain), i < k → domains[i]? = some Di → n ∉ Di.ToStrArray := by
  classical
  have hex : ∃ k : Nat, ∃ Dk : Domain, domains[k]? = some Dk ∧ n ∈ Dk.ToStrArray := by
    obtain ⟨k, hk⟩ := List.getElem?_of_mem hD
    exact ⟨k, D, hk, hn⟩
  obtain ⟨Dk, hk, hnk⟩ := Nat.find_spec hex
  refine ⟨Nat.find hex, Dk, hk, hnk, ?_⟩
  intro i Di hi hget hmem
  exact Nat.find_min hex hi ⟨Di, hget, hmem⟩

theorem isDomainAlreadyChecked_names (n : List Char) (names : List (List Char))
    (hcomma : ∀ g ∈ names, ',' ∉ g) (h : isDomainAlreadyChecked n names = true) :
    ∃ g ∈ names, MatchDomain n g = true := by
  obtain ⟨g, hg, e, he, hm⟩ := (isDomainAlreadyChecked_eq_true_iff n names).mp h
  rw [strings.Split_of_not_mem _ _ (hcomma g hg)] at he
  simp at he
  subst he
  exact ⟨e, hg, hm⟩

/-- A wildcard name that occurs in a list of comma-free names is a name of the
pruned list. -/
theorem deleteUnnecessaryDomains_wildcard_kept (domains : List Domain)
    (hcomma : ∀ D ∈ domains, ∀ g ∈ D.ToStrArray, ',' ∉ g) (suffix : List Char) (D : Domain)
    (hD : D ∈ domains) (hw : '*' :: '.' :: suffix ∈ D.ToStrArray) :
    '*' :: '.' :: suffix ∈ (deleteUnnecessaryDomains domains).flatMap Domain.ToStrArray := by
  obtain ⟨k0, D0, hk0, hn0, hmin⟩ := exists_first_entry domains _ D hD hw
  rcases keptDomain_or_removed domains k0 D0 _ hn0 (by simp) with ⟨d, hd, hnd⟩ | h
  · exact List.mem_flatMap.mpr ⟨d, keptDomain_mem domains k0 D0 d hk0 hd, hnd⟩
  · exfalso
    obtain ⟨k, Dk, hk, _, hp⟩ := h
    have hDk : Dk ∈ domains := List.getElem?_mem hk
    rcases hp with ⟨hlt, hmem | hcov⟩ | ⟨hne, hpre, hcov⟩
    · exact hmin k Dk hlt hk hmem
    · obtain ⟨g, hg, hm⟩ := isDomainAlreadyChecked_names _ _ (hcomma Dk hDk) hcov
      rw [MatchDomain_wildcard suffix g hm] at hg
      exact hmin k Dk hlt hk hg
    · have hmain : Dk.Main ∈ Dk.ToStrArray := by
        have hlen : 0 < Dk.Main.length := by
          match hM : Dk.Main with
          | [] => rw [hM] at hpre; simp [strings.HasPrefix] at hpre
          | c :: cs => simp
        simp [Domain.ToStrArray, hlen]
      obtain ⟨g, hg, hm⟩ := isDomainAlreadyChecked_names _ [Dk.Main]
        (by simpa using hcomma Dk hDk _ hmain) hcov
      simp at hg
      subst hg
      exact hne (MatchDomain_wildcard suffix _ hm)

theorem isDomainAlreadyChecked_of_mem (n g : List Char) (names : List (List Char))
    (hg : g ∈ names) (hcomma : ',' ∉ g) (hm : MatchDomain n g = true) :
    isDomainAlreadyChecked n names = true := by
  rw [isDomainAlreadyChecked_eq_true_iff]
  refine ⟨g, hg, g, ?_, hm⟩
  rw [strings.Split_of_not_mem _ _ hcomma]
  simp

/-- C13: pruning a list of well-formed names (non-empty dot-separated labels, no
comma) loses no coverage: every name of every entry of the list is covered, in
the sense of `isDomainAlreadyChecked`, by the flattened names of the pruned
list. -/
theorem deleteUnnecessaryDomains_keeps_coverage (domains : List Domain)
    (hwf : ∀ D ∈ domains, ∀ g ∈ D.ToStrArray,
      (∀ l ∈ strings.Split g '.', l ≠ []) ∧ ',' ∉ g)
    (D : Domain) (hD : D ∈ domains) (n : List Char) (hn : n ∈ D.ToStrArray) :
    isDomainAlreadyChecked n
      ((deleteUnnecessaryDomains domains).flatMap Domain.ToStrArray) = true := by
  have hcomma : ∀ D ∈ domains, ∀ g ∈ D.ToStrArray, ',' ∉ g :=
    fun D hD g hg => (hwf D hD g hg).2
  have hne : n ≠ [] := by
    intro e
    subst e
    exact (hwf D hD [] hn).1 [] (by simp [strings.Split]) rfl
  obtain ⟨k0, D0, hk0, hn0, hmin⟩ := exists_first_entry domains n D hD hn
  have viaWildcard : ∀ (Dk : Domain) (g : List Char), Dk ∈ domains → g ∈ Dk.ToStrArray →
      g ≠ n → MatchDomain n g = true →
      isDomainAlreadyChecked n
        ((deleteUnnecessaryDomains domains).flatMap Domain.ToStrArray) = true := by
    intro Dk g hDk hg hgn hm
    rcases MatchDomain_cases n g hm with h1 | ⟨suffix, h2⟩
    · exact absurd h1 hgn
    · subst h2
      exact isDomainAlreadyChecked_of_mem n _ _
        (deleteUnnecessaryDomains_wildcard_kept domains hcomma suffix Dk hDk hg)
        (hcomma Dk hDk _ hg) hm
  rcases keptDomain_or_removed domains k0 D0 n hn0 hne with ⟨d, hd, hnd⟩ | h
  · exact isDomainAlreadyChecked_of_mem n n _
      (List.mem_flatMap.mpr ⟨d, keptDomain_mem domains k0 D0 d hk0 hd, hnd⟩)
      (hcomma D hD n hn) (MatchDomain_self n)
  · obtain ⟨k, Dk, hk, _, hp⟩ := h
    have hDk : Dk ∈ domains := List.getElem?_mem hk
    rcases hp with ⟨hlt, hmem | hcov⟩ | ⟨hneq, hpre, hcov⟩
    · exact absurd hmem (hmin k Dk hlt hk)
    · obtain ⟨g, hg, hm⟩ := isDomainAlreadyChecked_names _ _ (hcomma Dk hDk) hcov
      by_cases hgn : g = n
      · subst hgn
        exact absurd hg (hmin k Dk hlt hk)
      · exact viaWildcard Dk g hDk hg hgn hm
    · have hmain : Dk.Main ∈ Dk.ToStrArray := by
        have hlen : 0 < Dk.Main.length := by
          match hM : Dk.Main with
          | [] => rw [hM] at hpre; simp [strings.HasPrefix] at hpre
          | c :: cs => simp
        simp [Domain.ToStrArray, hlen]
      obtain ⟨g, hg, hm⟩ := isDomainAlreadyChecked_names _ [Dk.Main]
        (by simpa using hcomma Dk hDk _ hmain) hcov
      simp at hg
      subst hg
      exact viaWildcard Dk _ hDk hmain hneq hm

theorem deleteUnnecessaryDomains_keeps_coverage_witness :
    isDomainAlreadyChecked "x.a.com".toList
      ((deleteUnnecessaryDomains
        [⟨"x.a.com".toList, ["b.org".toList]⟩, ⟨"*.a.com".toList, []⟩,
          ⟨"b.org".toList, []⟩]).flatMap Domain.ToStrArray) = true :=
  deleteUnnecessaryDomains_keeps_coverage
    [⟨"x.a.com".toList, ["b.org".toList]⟩, ⟨"*.a.com".toList, []⟩, ⟨"b.org".toList, []⟩]
    (by decide) ⟨"x.a.com".toList, ["b.org".toList]⟩ (by decide) "x.a.com".toList (by decide)

end Acme
